import Mathlib

/-!
Verification of the master-data consistency checker: dependency extraction,
recursive proper-level resolution with memoization and cycle detection, and
the per-edge consistency validator, modelled shallowly from
`src/helper_functions.py`.
-/

/-- A dependency reference: the target full key paired with the context tag
(`"current"` or `"pf"`) parsed out of the formula text. -/
abbrev Dep := String × String

/-- The dependency map `dependency_map`: full key to extracted references. -/
abbrev DepMap := List (String × List Dep)

/-- The resolver's memo table, a dictionary from full key to computed level. -/
abbrev Memo := List (String × Int)

/-- One key record (a row of the metadata frame), with the fields the core
actually reads. -/
structure Row where
  full_key : String
  fund_id : String
  calculation_level : Int
  is_current : Bool
  formula : Option String
deriving DecidableEq

/-- Python dict lookup for a dict built from a list of pairs: the binding
appearing last in the list wins, absent key gives `none`. -/
def dget {β : Type} : List (String × β) → String → Option β
  | [], _ => none
  | p :: t, k =>
    match dget t k with
    | some v => some v
    | none => if p.1 = k then some p.2 else none

/-- Span of non-quote characters: the greedy `[^"]+` part of the pattern. -/
def takeStr : List Char → List Char × List Char
  | [] => ([], [])
  | c :: rest =>
    if c = '"' then ([], c :: rest)
    else
      match takeStr rest with
      | (a, b) => (c :: a, b)

/-- Match `"<nonempty non-quote text>"` at the head of the input, returning
the quoted text and the remaining characters. -/
def matchQuoted : List Char → Option (String × List Char)
  | '"' :: rest =>
    match takeStr rest with
    | ([], _) => none
    | (content, rest2) =>
      match rest2 with
      | '"' :: r => some (content.asString, r)
      | _ => none
  | _ => none

/-- Match one occurrence of the reference pattern
`"<datagroup>"!"<key>"!"<current or pf>"` at the head of the input. -/
def matchTriple (s : List Char) : Option ((String × String × String) × List Char) :=
  match matchQuoted s with
  | none => none
  | some (g, r1) =>
    match r1 with
    | '!' :: r2 =>
      match matchQuoted r2 with
      | none => none
      | some (k, r3) =>
        match r3 with
        | '!' :: '"' :: r4 =>
          match r4 with
          | 'c' :: 'u' :: 'r' :: 'r' :: 'e' :: 'n' :: 't' :: '"' :: r5 => some ((g, k, "current"), r5)
          | 'p' :: 'f' :: '"' :: r5 => some ((g, k, "pf"), r5)
          | _ => none
        | _ => none
    | _ => none

/-- Left-to-right non-overlapping scan for the reference pattern, as
`re.findall` does: on a failed match advance one character, on a successful
match continue after its end.  The fuel argument only bounds the recursion
and is always supplied large enough. -/
def scanAux : Nat → List Char → List (String × String × String)
  | 0, _ => []
  | _, [] => []
  | fuel + 1, c :: rest =>
    match matchTriple (c :: rest) with
    | some (t, r) => t :: scanAux fuel r
    | none => scanAux fuel rest

/-- `extract_dependencies`: absent (non-text) formula yields no references;
otherwise each pattern match `(g, k, ctx)` becomes the pair
`(fund_id!g!k!ctx, ctx)`. -/
def extract_dependencies (formula : Option String) (fund_id : String) : List Dep :=
  match formula with
  | none => []
  | some f =>
    (scanAux (f.data.length + 1) f.data).map
      (fun t => (fund_id ++ "!" ++ t.1 ++ "!" ++ t.2.1 ++ "!" ++ t.2.2, t.2.2))

/-- `level_map`: full key to declared calculation level. -/
def level_map (df : List Row) (k : String) : Option Int :=
  dget (df.map (fun r => (r.full_key, r.calculation_level))) k

/-- `current_map`: full key to declared `is_current` flag. -/
def current_map (df : List Row) (k : String) : Option Bool :=
  dget (df.map (fun r => (r.full_key, r.is_current))) k

/-- `dependency_map`: full key to the references extracted from the row's
formula. -/
def dependency_map (df : List Row) : DepMap :=
  df.map (fun r => (r.full_key, extract_dependencies r.formula r.fund_id))

/-- Python `max` over a nonempty list of integers (the empty case is never
reached by the resolver). -/
def maxL : List Int → Int
  | [] => 0
  | h :: t => t.foldl max h

/-- `dep_map.get(key, [])`. -/
def depsOf (dm : DepMap) (k : String) : List Dep :=
  (dget dm k).getD []

/-- The set of keys present in the dependency map. -/
def dmKeys (dm : DepMap) : Finset String :=
  (dm.map Prod.fst).toFinset

/-- The dependency loop inside `calculate_proper_level`: walk the reference
list, contributing level 0 for a target absent from the dependency map and
recursing (through `f`) otherwise, threading the visited set and the memo
table. -/
def calcDeps (dm : DepMap) (f : String → List String → Memo → Option (Int × List String × Memo)) :
    List Dep → List String → Memo → Option (List Int × List String × Memo)
  | [], v, m => some ([], v, m)
  | d :: rest, v, m =>
    if (dget dm d.1).isNone then
      match calcDeps dm f rest v m with
      | none => none
      | some (ls, v2, m2) => some (0 :: ls, v2, m2)
    else
      match f d.1 v m with
      | none => none
      | some (l, v1, m1) =>
        match calcDeps dm f rest v1 m1 with
        | none => none
        | some (ls, v2, m2) => some (l :: ls, v2, m2)

/-- `calculate_proper_level`, with the recursion depth made explicit as fuel:
memo hit returns the cached level, a key found on the active path returns the
cycle sentinel `-1` without touching the state, otherwise the key is pushed
on the path, its dependencies are resolved, the key is popped and the result
memoized. -/
def calculate_proper_level (dm : DepMap) : Nat → String → List String → Memo → Option (Int × List String × Memo)
  | 0, _, _, _ => none
  | fuel + 1, key, visited, memo =>
    match List.lookup key memo with
    | some l => some (l, visited, memo)
    | none =>
      if key ∈ visited then
        some (-1, visited, memo)
      else
        if depsOf dm key = [] then
          some (0, (key :: visited).erase key, (key, 0) :: memo)
        else
          match calcDeps dm (calculate_proper_level dm fuel) (depsOf dm key) (key :: visited) memo with
          | none => none
          | some (levels, v2, m2) =>
            let level := if (-1 : Int) ∈ levels then -1 else if levels = [] then 0 else 1 + maxL levels
            some (level, v2.erase key, (key, level) :: m2)

/-- Fuel that always suffices: one more than the number of map entries. -/
def defaultFuel (dm : DepMap) : Nat := dm.length + 1

/-- The level-resolution pass: query each key in order with a fresh visited
set, threading the single global memo table, as the column-building
`df["full_key"].apply(...)` does. -/
def runLevels (dm : DepMap) : List String → Memo → Option Memo
  | [], m => some m
  | k :: rest, m =>
    match calculate_proper_level dm (defaultFuel dm) k [] m with
    | none => none
    | some r => runLevels dm rest r.2.2

/-- Run the resolver over a query list starting from the empty memo. -/
def resolveAll (dm : DepMap) (keys : List String) : Option Memo :=
  runLevels dm keys []

/-- The cycle sentinel the resolver returns. -/
def cycleLevel : Int := -1

/-- A violation record, mirroring the dictionaries appended to `violations`. -/
inductive Violation where
  | invalidOrder (key : String) (dependency : String) (dependency_level : Option Int) (key_level : Int)
  | missingDep (key : String) (dependency : String) (context : String)
  | expectedCurrentButPf (key : String) (dependency : String) (dependency_is_current : Option Bool)
  | expectedPfButCurrent (key : String) (dependency : String) (dependency_is_current : Option Bool)
deriving DecidableEq

/-- The validation loop body for one dependency edge.  Note that, as in the
source, the extracted context tag `d.2` is shadowed: `dep_ctx` is recomputed
from the dependency's own `is_current` flag before any check reads it. -/
def checkEdge (df : List Row) (r : Row) (d : Dep) : Option Violation :=
  let dep_key := d.1
  let dep_level := level_map df dep_key
  let dep_is_current := current_map df dep_key
  let dep_ctx := match dep_is_current with
    | some true => "current"
    | _ => "pf"
  if r.calculation_level ≠ 0 ∧ r.formula = none then
    some (Violation.invalidOrder r.full_key dep_key dep_level r.calculation_level)
  else
    match dep_level with
    | none => some (Violation.missingDep r.full_key dep_key dep_ctx)
    | some dl =>
      if dl ≥ r.calculation_level ∧ r.calculation_level ≠ 0 then
        some (Violation.invalidOrder r.full_key dep_key (some dl) r.calculation_level)
      else if dep_ctx = "current" ∧ dep_is_current ≠ some true then
        some (Violation.expectedCurrentButPf r.full_key dep_key dep_is_current)
      else if dep_ctx = "pf" ∧ dep_is_current ≠ some false then
        some (Violation.expectedPfButCurrent r.full_key dep_key dep_is_current)
      else none

/-- All violations contributed by one row: one optional violation per
extracted dependency edge, first matching check wins. -/
def rowViolations (df : List Row) (r : Row) : List Violation :=
  (extract_dependencies r.formula r.fund_id).filterMap (checkEdge df r)

/-- The whole validation pass over the frame. -/
def validate (df : List Row) : List Violation :=
  df.flatMap (rowViolations df)

/-- Recognizer for the two context-mismatch violation kinds. -/
def ctxViol : Violation → Bool
  | .expectedCurrentButPf _ _ _ => true
  | .expectedPfButCurrent _ _ _ => true
  | _ => false

/-- Every violation is one of the four data kinds. -/
def dataViolation : Violation → Bool
  | .invalidOrder _ _ _ _ => true
  | .missingDep _ _ _ => true
  | .expectedCurrentButPf _ _ _ => true
  | .expectedPfButCurrent _ _ _ => true

/-- Fold a list of dependency levels into the subject's level: any cycle
sentinel propagates, otherwise one more than the maximum. -/
def combineLevels (ls : List Int) : Int :=
  if (-1 : Int) ∈ ls then -1 else 1 + maxL ls

/-- The traversed dependency edge relation: `b` is referenced by `a`'s
dependency list and is present in the dependency map (absent targets are
never recursed into). -/
def Edge (dm : DepMap) (a b : String) : Prop :=
  (∃ c, (b, c) ∈ depsOf dm a) ∧ (dget dm b).isSome = true

/-- Direct or transitive dependency. -/
def Depends (dm : DepMap) : String → String → Prop :=
  Relation.TransGen (Edge dm)

/-- Reachability (zero or more dependency edges). -/
def Reaches (dm : DepMap) : String → String → Prop :=
  Relation.ReflTransGen (Edge dm)

/-- The key lies on a dependency cycle. -/
def OnCycle (dm : DepMap) (k : String) : Prop :=
  Depends dm k k

/-- The key reaches some key lying on a cycle. -/
def ReachesCycle (dm : DepMap) (k : String) : Prop :=
  ∃ j, Reaches dm k j ∧ OnCycle dm j

mutual

/-- Order-independent reference semantics for the resolver: the level a key
gets, as a pure function of the dependency map and the active path. -/
def specLevel (dm : DepMap) (V : Finset String) (k : String) : Int :=
  if hv : k ∈ V then -1
  else
    match hh : dget dm k with
    | none => 0
    | some deps =>
      if hd : deps = [] then 0
      else combineLevels (specLevels dm (insert k V) deps)
termination_by ((dmKeys dm \ V).card, 0, 0)
decreasing_by
  simp_wf
  apply Prod.Lex.left
  have hk : k ∈ dmKeys dm := by
    have h1 : (dget dm k).isSome = true := by rw [hh]; rfl
    unfold dmKeys
    rw [List.mem_toFinset]
    clear hh hd hv
    induction dm with
    | nil => simp [dget] at h1
    | cons p t ih =>
      rw [List.map_cons, List.mem_cons]
      cases hdt : dget t k with
      | some v =>
        exact Or.inr (ih (by rw [hdt]; rfl))
      | none =>
        rw [dget, hdt] at h1
        by_cases hp : p.1 = k
        · exact Or.inl hp.symm
        · rw [if_neg hp] at h1
          simp at h1
  apply Finset.card_lt_card
  rw [Finset.ssubset_def]
  constructor
  · intro x hx
    rw [Finset.mem_sdiff] at hx ⊢
    exact ⟨hx.1, fun hxv => hx.2 (Finset.mem_insert_of_mem hxv)⟩
  · intro hsub
    have hcontra : k ∈ dmKeys dm \ insert k V := hsub (Finset.mem_sdiff.mpr ⟨hk, hv⟩)
    rw [Finset.mem_sdiff] at hcontra
    exact hcontra.2 (Finset.mem_insert_self k V)

/-- Reference semantics for the dependency loop: absent targets contribute
level 0. -/
def specLevels (dm : DepMap) (V : Finset String) : List Dep → List Int
  | [] => []
  | d :: rest =>
    (if (dget dm d.1).isNone then 0 else specLevel dm V d.1) :: specLevels dm V rest
termination_by ds => ((dmKeys dm \ V).card, 1, ds.length)

end

/-- Every memo entry agrees with the reference semantics. -/
def memoOK (dm : DepMap) (m : Memo) : Prop :=
  ∀ k l, List.lookup k m = some l → l = specLevel dm ∅ k

/-- Every binding of the first memo survives in the second. -/
def memoLe (m m2 : Memo) : Prop :=
  ∀ k l, List.lookup k m = some l → List.lookup k m2 = some l

theorem dget_isSome_iff {β : Type} (l : List (String × β)) (k : String) :
    (dget l k).isSome = true ↔ k ∈ l.map Prod.fst := by
  induction l with
  | nil => simp [dget]
  | cons p t ih =>
    rw [List.map_cons, List.mem_cons, dget]
    cases hdt : dget t k with
    | some v =>
      rw [hdt] at ih
      simp only [Option.isSome_some, true_iff] at ih
      simp [ih]
    | none =>
      rw [hdt] at ih
      simp only [Option.isSome_none, false_iff] at ih
      by_cases hp : p.1 = k
      · simp [hp]
      · have hp2 : ¬ k = p.1 := fun e => hp e.symm
        simp [hp, hp2, ih]

theorem dget_none_iff {β : Type} (l : List (String × β)) (k : String) :
    dget l k = none ↔ k ∉ l.map Prod.fst := by
  rw [← dget_isSome_iff]
  cases dget l k <;> simp

theorem mem_dmKeys_iff (dm : DepMap) (k : String) :
    k ∈ dmKeys dm ↔ (dget dm k).isSome = true := by
  unfold dmKeys
  rw [List.mem_toFinset]
  exact (dget_isSome_iff dm k).symm

theorem depsOf_of_dget_none {dm : DepMap} {k : String} (h : dget dm k = none) :
    depsOf dm k = [] := by
  unfold depsOf
  rw [h]
  rfl

theorem depsOf_of_dget_some {dm : DepMap} {k : String} {deps : List Dep}
    (h : dget dm k = some deps) : depsOf dm k = deps := by
  unfold depsOf
  rw [h]
  rfl

theorem mem_dmKeys_of_depsOf {dm : DepMap} {k : String} (h : depsOf dm k ≠ []) :
    k ∈ dmKeys dm := by
  rw [mem_dmKeys_iff]
  cases hh : dget dm k with
  | none => exact absurd (depsOf_of_dget_none hh) h
  | some deps => rfl

theorem card_sdiff_insert_lt (dm : DepMap) {V : Finset String} {k : String}
    (hk : k ∈ dmKeys dm) (hv : k ∉ V) :
    (dmKeys dm \ insert k V).card < (dmKeys dm \ V).card := by
  apply Finset.card_lt_card
  rw [Finset.ssubset_def]
  constructor
  · intro x hx
    rw [Finset.mem_sdiff] at hx ⊢
    exact ⟨hx.1, fun hxv => hx.2 (Finset.mem_insert_of_mem hxv)⟩
  · intro hsub
    have hcontra : k ∈ dmKeys dm \ insert k V := hsub (Finset.mem_sdiff.mpr ⟨hk, hv⟩)
    rw [Finset.mem_sdiff] at hcontra
    exact hcontra.2 (Finset.mem_insert_self k V)

theorem specLevel_mem (dm : DepMap) (V : Finset String) (k : String) (h : k ∈ V) :
    specLevel dm V k = -1 := by
  rw [specLevel]
  simp [h]

theorem specLevel_none (dm : DepMap) (V : Finset String) (k : String) (hv : k ∉ V)
    (h : dget dm k = none) : specLevel dm V k = 0 := by
  rw [specLevel, dif_neg hv]
  split
  · rfl
  · simp_all

theorem specLevel_some_nil (dm : DepMap) (V : Finset String) (k : String) (hv : k ∉ V)
    (h : dget dm k = some []) : specLevel dm V k = 0 := by
  rw [specLevel, dif_neg hv]
  split
  · rfl
  · rename_i deps2 heq
    rw [h] at heq
    injection heq with heq2
    subst heq2
    rfl

theorem specLevel_deps (dm : DepMap) (V : Finset String) (k : String) (hv : k ∉ V)
    (deps : List Dep) (h : dget dm k = some deps) (hd : deps ≠ []) :
    specLevel dm V k = combineLevels (specLevels dm (insert k V) deps) := by
  rw [specLevel, dif_neg hv]
  split
  · simp_all
  · rename_i deps2 heq
    rw [h] at heq
    injection heq with heq2
    subst heq2
    rw [dif_neg hd]

theorem specLevels_eq_map (dm : DepMap) (V : Finset String) (ds : List Dep) :
    specLevels dm V ds =
      ds.map (fun d => if (dget dm d.1).isNone then 0 else specLevel dm V d.1) := by
  induction ds with
  | nil => rw [specLevels, List.map_nil]
  | cons d rest ih => rw [specLevels, List.map_cons, ih]

theorem lookup_cons_self {β : Type} (k : String) (l : β) (m : List (String × β)) :
    List.lookup k ((k, l) :: m) = some l := by
  simp [List.lookup]

theorem lookup_cons_ne {β : Type} {x k : String} (l : β) (m : List (String × β))
    (hx : ¬ x = k) : List.lookup x ((k, l) :: m) = List.lookup x m := by
  have hbeq : (x == k) = false := beq_eq_false_iff_ne.mpr hx
  simp [List.lookup, hbeq]

theorem memoLe_refl (m : Memo) : memoLe m m := fun _ _ h => h

theorem memoLe_trans {a b c : Memo} (h1 : memoLe a b) (h2 : memoLe b c) : memoLe a c :=
  fun k l h => h2 k l (h1 k l h)

theorem memoLe_write {m : Memo} {k : String} {l : Int}
    (hnone : List.lookup k m = none) : memoLe m ((k, l) :: m) := by
  intro x v hx
  by_cases hxk : x = k
  · subst hxk
    rw [hx] at hnone
    exact absurd hnone (by simp)
  · rw [lookup_cons_ne l m hxk]
    exact hx

theorem memoOK_write {dm : DepMap} {m : Memo} {k : String} {l : Int}
    (hm : memoOK dm m) (hl : l = specLevel dm ∅ k) : memoOK dm ((k, l) :: m) := by
  intro x v hx
  by_cases hxk : x = k
  · subst hxk
    rw [lookup_cons_self] at hx
    injection hx with hx2
    subst hx2
    exact hl
  · rw [lookup_cons_ne l m hxk] at hx
    exact hm x v hx

theorem edge_intro {dm : DepMap} {a : String} {d : Dep} (hmem : d ∈ depsOf dm a)
    (hs : (dget dm d.1).isSome = true) : Edge dm a d.1 :=
  ⟨⟨d.2, hmem⟩, hs⟩

theorem isSome_of_not_isNone {β : Type} {o : Option β} (h : ¬ o.isNone = true) :
    o.isSome = true := by
  cases o with
  | none => simp at h
  | some _ => rfl

theorem hyp_step (dm : DepMap) (V : Finset String) (k : String) (hv : k ∉ V)
    (hyp : (∃ v ∈ V, Reaches dm k v) ∨ ReachesCycle dm k) :
    ∃ b, Edge dm k b ∧ ((∃ v ∈ insert k V, Reaches dm b v) ∨ ReachesCycle dm b) := by
  rcases hyp with ⟨v, hvV, hr⟩ | ⟨j, hr, hc⟩
  · rcases Relation.ReflTransGen.cases_head hr with heq | ⟨b, hkb, hbv⟩
    · exact absurd (heq ▸ hvV) hv
    · exact ⟨b, hkb, Or.inl ⟨v, Finset.mem_insert_of_mem hvV, hbv⟩⟩
  · rcases Relation.ReflTransGen.cases_head hr with heq | ⟨b, hkb, hbj⟩
    · subst heq
      rcases Relation.TransGen.head'_iff.mp hc with ⟨b, hkb, hbk⟩
      exact ⟨b, hkb, Or.inl ⟨k, Finset.mem_insert_self k V, hbk⟩⟩
    · exact ⟨b, hkb, Or.inr ⟨j, hbj, hc⟩⟩

theorem specLevel_eq_neg (dm : DepMap) :
    ∀ (n : Nat) (V : Finset String) (k : String), (dmKeys dm \ V).card ≤ n →
      ((∃ v ∈ V, Reaches dm k v) ∨ ReachesCycle dm k) →
      specLevel dm V k = -1 := by
  intro n
  induction n with
  | zero =>
    intro V k hcard hyp
    by_cases hv : k ∈ V
    · exact specLevel_mem dm V k hv
    · exfalso
      obtain ⟨b, hedge, _⟩ := hyp_step dm V k hv hyp
      obtain ⟨⟨c, hcmem⟩, _⟩ := hedge
      have hk : k ∈ dmKeys dm := mem_dmKeys_of_depsOf (List.ne_nil_of_mem hcmem)
      have hpos : 0 < (dmKeys dm \ V).card :=
        Finset.card_pos.mpr ⟨k, Finset.mem_sdiff.mpr ⟨hk, hv⟩⟩
      omega
  | succ n ih =>
    intro V k hcard hyp
    by_cases hv : k ∈ V
    · exact specLevel_mem dm V k hv
    · obtain ⟨b, hedge, hypb⟩ := hyp_step dm V k hv hyp
      obtain ⟨⟨c, hcmem⟩, hbs⟩ := hedge
      have hne : depsOf dm k ≠ [] := List.ne_nil_of_mem hcmem
      have hk : k ∈ dmKeys dm := mem_dmKeys_of_depsOf hne
      cases hh : dget dm k with
      | none => exact absurd (depsOf_of_dget_none hh) hne
      | some deps =>
        have hdeps : depsOf dm k = deps := depsOf_of_dget_some hh
        rw [specLevel_deps dm V k hv deps hh (hdeps ▸ hne)]
        unfold combineLevels
        rw [if_pos]
        rw [specLevels_eq_map]
        refine List.mem_map.mpr ⟨(b, c), hdeps ▸ hcmem, ?_⟩
        have hnn : ¬ (dget dm b).isNone = true := by
          cases hget : dget dm b with
          | none => rw [hget] at hbs; simp at hbs
          | some _ => simp
        show (if (dget dm b).isNone then (0 : Int) else specLevel dm (insert k V) b) = -1
        rw [if_neg hnn]
        apply ih (insert k V) b
        · have hlt := card_sdiff_insert_lt dm hk hv
          omega
        · exact hypb

theorem specLevel_union_congr (dm : DepMap) :
    ∀ (n : Nat) (W U : Finset String) (k : String), (dmKeys dm \ W).card ≤ n →
      (∀ x ∈ U, ¬ Reaches dm k x) →
      specLevel dm (W ∪ U) k = specLevel dm W k := by
  intro n
  induction n with
  | zero =>
    intro W U k hcard hU
    by_cases hw : k ∈ W
    · rw [specLevel_mem dm _ k (Finset.mem_union_left U hw), specLevel_mem dm W k hw]
    · have hwu : k ∉ W ∪ U := by
        intro hx
        rcases Finset.mem_union.mp hx with h | h
        · exact hw h
        · exact hU k h Relation.ReflTransGen.refl
      cases hh : dget dm k with
      | none => rw [specLevel_none dm _ k hwu hh, specLevel_none dm W k hw hh]
      | some deps =>
        by_cases hd : deps = []
        · subst hd
          rw [specLevel_some_nil dm _ k hwu hh, specLevel_some_nil dm W k hw hh]
        · exfalso
          have hk : k ∈ dmKeys dm := by
            rw [mem_dmKeys_iff, hh]
            rfl
          have hpos : 0 < (dmKeys dm \ W).card :=
            Finset.card_pos.mpr ⟨k, Finset.mem_sdiff.mpr ⟨hk, hw⟩⟩
          omega
  | succ n ih =>
    intro W U k hcard hU
    by_cases hw : k ∈ W
    · rw [specLevel_mem dm _ k (Finset.mem_union_left U hw), specLevel_mem dm W k hw]
    · have hwu : k ∉ W ∪ U := by
        intro hx
        rcases Finset.mem_union.mp hx with h | h
        · exact hw h
        · exact hU k h Relation.ReflTransGen.refl
      cases hh : dget dm k with
      | none => rw [specLevel_none dm _ k hwu hh, specLevel_none dm W k hw hh]
      | some deps =>
        by_cases hd : deps = []
        · subst hd
          rw [specLevel_some_nil dm _ k hwu hh, specLevel_some_nil dm W k hw hh]
        · have hk : k ∈ dmKeys dm := by
            rw [mem_dmKeys_iff, hh]
            rfl
          rw [specLevel_deps dm _ k hwu deps hh hd, specLevel_deps dm W k hw deps hh hd]
          rw [show insert k (W ∪ U) = insert k W ∪ U from (Finset.insert_union k W U).symm]
          congr 1
          rw [specLevels_eq_map, specLevels_eq_map]
          apply List.map_congr_left
          intro d hdm
          by_cases hnone : (dget dm d.1).isNone = true
          · rw [if_pos hnone, if_pos hnone]
          · rw [if_neg hnone, if_neg hnone]
            apply ih (insert k W) U d.1
            · have hlt := card_sdiff_insert_lt dm hk hw
              omega
            · intro x hx hre
              have hedge : Edge dm k d.1 :=
                edge_intro (depsOf_of_dget_some hh ▸ hdm) (isSome_of_not_isNone hnone)
              exact hU x hx (Relation.ReflTransGen.head hedge hre)

theorem specLevel_closed (dm : DepMap) (k : String) (deps : List Dep)
    (hh : dget dm k = some deps) (hd : deps ≠ []) :
    specLevel dm ∅ k =
      combineLevels (deps.map (fun d => if (dget dm d.1).isNone then 0 else specLevel dm ∅ d.1)) := by
  rw [specLevel_deps dm ∅ k (Finset.not_mem_empty k) deps hh hd, specLevels_eq_map]
  congr 1
  apply List.map_congr_left
  intro d hdmem
  by_cases hnone : (dget dm d.1).isNone = true
  · rw [if_pos hnone, if_pos hnone]
  · rw [if_neg hnone, if_neg hnone]
    have hedge : Edge dm k d.1 :=
      edge_intro (depsOf_of_dget_some hh ▸ hdmem) (isSome_of_not_isNone hnone)
    by_cases hreach : Reaches dm d.1 k
    · have h1 : specLevel dm (insert k ∅) d.1 = -1 :=
        specLevel_eq_neg dm _ _ _ (le_refl _)
          (Or.inl ⟨k, Finset.mem_insert_self _ _, hreach⟩)
      have hcyc : OnCycle dm d.1 := Relation.TransGen.tail' hreach hedge
      have h2 : specLevel dm ∅ d.1 = -1 :=
        specLevel_eq_neg dm _ _ _ (le_refl _)
          (Or.inr ⟨d.1, Relation.ReflTransGen.refl, hcyc⟩)
      rw [h1, h2]
    · have hcon := specLevel_union_congr dm _ ∅ {k} d.1 (le_refl _)
        (by
          intro x hx
          rw [Finset.mem_singleton] at hx
          subst hx
          exact hreach)
      rw [Finset.empty_union] at hcon
      rw [show insert k (∅ : Finset String) = {k} from rfl, hcon]

theorem memoLe_write_far {m m2 : Memo} {k : String} {l : Int} (hle : memoLe m m2)
    (hnone : List.lookup k m = none) : memoLe m ((k, l) :: m2) := by
  intro x v hx
  by_cases hxk : x = k
  · subst hxk
    rw [hx] at hnone
    exact absurd hnone (by simp)
  · rw [lookup_cons_ne l m2 hxk]
    exact hle x v hx

theorem cpl_zero (dm : DepMap) (k : String) (V : List String) (m : Memo) :
    calculate_proper_level dm 0 k V m = none := rfl

theorem cpl_memo_hit (dm : DepMap) (fuel : Nat) (k : String) (V : List String) (m : Memo)
    (l : Int) (h : List.lookup k m = some l) :
    calculate_proper_level dm (fuel + 1) k V m = some (l, V, m) := by
  simp only [calculate_proper_level]
  rw [h]

theorem cpl_inpath (dm : DepMap) (fuel : Nat) (k : String) (V : List String) (m : Memo)
    (h1 : List.lookup k m = none) (h2 : k ∈ V) :
    calculate_proper_level dm (fuel + 1) k V m = some (-1, V, m) := by
  simp only [calculate_proper_level]
  rw [h1, if_pos h2]

theorem cpl_leaf (dm : DepMap) (fuel : Nat) (k : String) (V : List String) (m : Memo)
    (h1 : List.lookup k m = none) (h2 : k ∉ V) (h3 : depsOf dm k = []) :
    calculate_proper_level dm (fuel + 1) k V m = some (0, V, (k, 0) :: m) := by
  simp only [calculate_proper_level]
  rw [h1, if_neg h2, if_pos h3, List.erase_cons_head]

theorem cpl_step (dm : DepMap) (fuel : Nat) (k : String) (V : List String) (m : Memo)
    (h1 : List.lookup k m = none) (h2 : k ∉ V) (h3 : depsOf dm k ≠ [])
    {levels : List Int} {v2 : List String} {m2 : Memo}
    (hdeps : calcDeps dm (calculate_proper_level dm fuel) (depsOf dm k) (k :: V) m =
      some (levels, v2, m2)) :
    calculate_proper_level dm (fuel + 1) k V m =
      some ((if (-1 : Int) ∈ levels then -1 else if levels = [] then 0 else 1 + maxL levels),
        v2.erase k,
        (k, (if (-1 : Int) ∈ levels then -1 else if levels = [] then 0 else 1 + maxL levels)) :: m2) := by
  simp only [calculate_proper_level]
  rw [h1, if_neg h2, if_neg h3, hdeps]

theorem calcDeps_ok (dm : DepMap)
    (f : String → List String → Memo → Option (Int × List String × Memo)) (V1 : List String)
    (hf : ∀ k m, memoOK dm m → (∀ v ∈ V1, Depends dm v k) →
      ∃ m2, f k V1 m = some (specLevel dm ∅ k, V1, m2) ∧ memoOK dm m2 ∧ memoLe m m2) :
    ∀ (ds : List Dep) (m : Memo), memoOK dm m →
      (∀ d ∈ ds, (dget dm d.1).isSome = true → ∀ v ∈ V1, Depends dm v d.1) →
      ∃ m2, calcDeps dm f ds V1 m =
          some (ds.map (fun d => if (dget dm d.1).isNone then 0 else specLevel dm ∅ d.1), V1, m2) ∧
        memoOK dm m2 ∧ memoLe m m2 := by
  intro ds
  induction ds with
  | nil =>
    intro m hm _
    exact ⟨m, by simp [calcDeps], hm, memoLe_refl m⟩
  | cons d rest ih =>
    intro m hm hds
    by_cases hn : (dget dm d.1).isNone = true
    · obtain ⟨m2, hrec, hm2, hle⟩ := ih m hm (fun x hx => hds x (List.mem_cons_of_mem d hx))
      refine ⟨m2, ?_, hm2, hle⟩
      simp only [calcDeps]
      rw [if_pos hn, hrec, List.map_cons, if_pos hn]
    · have hsome : (dget dm d.1).isSome = true := isSome_of_not_isNone hn
      obtain ⟨m1, hf1, hm1, hle1⟩ := hf d.1 m hm (hds d (List.mem_cons_self d rest) hsome)
      obtain ⟨m2, hrec, hm2, hle2⟩ := ih m1 hm1 (fun x hx => hds x (List.mem_cons_of_mem d hx))
      refine ⟨m2, ?_, hm2, memoLe_trans hle1 hle2⟩
      simp only [calcDeps]
      rw [if_neg hn, hf1]
      simp only [hrec, List.map_cons, if_neg hn]

theorem calcLevel_ok (dm : DepMap) :
    ∀ (fuel : Nat) (k : String) (V : List String) (m : Memo),
      (∀ v ∈ V, Depends dm v k) → memoOK dm m →
      (dmKeys dm \ V.toFinset).card < fuel →
      ∃ m2, calculate_proper_level dm fuel k V m = some (specLevel dm ∅ k, V, m2) ∧
        memoOK dm m2 ∧ memoLe m m2 ∧
        (k ∈ V ∨ List.lookup k m2 = some (specLevel dm ∅ k)) := by
  intro fuel
  induction fuel with
  | zero =>
    intro k V m _ _ hcard
    omega
  | succ fuel ih =>
    intro k V m hpath hm hcard
    cases hlk : List.lookup k m with
    | some l =>
      have hl : l = specLevel dm ∅ k := hm k l hlk
      subst hl
      exact ⟨m, cpl_memo_hit dm fuel k V m _ hlk, hm, memoLe_refl m, Or.inr hlk⟩
    | none =>
      by_cases hv : k ∈ V
      · have hcyc : OnCycle dm k := hpath k hv
        have hspec : specLevel dm ∅ k = -1 :=
          specLevel_eq_neg dm _ ∅ k (le_refl _) (Or.inr ⟨k, Relation.ReflTransGen.refl, hcyc⟩)
        rw [hspec]
        exact ⟨m, cpl_inpath dm fuel k V m hlk hv, hm, memoLe_refl m, Or.inl hv⟩
      · cases hh : dget dm k with
        | none =>
          have hd0 : depsOf dm k = [] := depsOf_of_dget_none hh
          have hspec : specLevel dm ∅ k = 0 :=
            specLevel_none dm ∅ k (Finset.not_mem_empty k) hh
          rw [hspec]
          exact ⟨(k, 0) :: m, cpl_leaf dm fuel k V m hlk hv hd0,
            memoOK_write hm hspec.symm, memoLe_write hlk,
            Or.inr (by rw [lookup_cons_self])⟩
        | some deps =>
          by_cases hd : deps = []
          · subst hd
            have hd0 : depsOf dm k = [] := depsOf_of_dget_some hh
            have hspec : specLevel dm ∅ k = 0 :=
              specLevel_some_nil dm ∅ k (Finset.not_mem_empty k) hh
            rw [hspec]
            exact ⟨(k, 0) :: m, cpl_leaf dm fuel k V m hlk hv hd0,
              memoOK_write hm hspec.symm, memoLe_write hlk,
              Or.inr (by rw [lookup_cons_self])⟩
          · have hdeps : depsOf dm k = deps := depsOf_of_dget_some hh
            have hdne : depsOf dm k ≠ [] := by
              rw [hdeps]
              exact hd
            have hk : k ∈ dmKeys dm := mem_dmKeys_of_depsOf hdne
            have hvF : k ∉ V.toFinset := by
              rw [List.mem_toFinset]
              exact hv
            have hV1card : (dmKeys dm \ (k :: V).toFinset).card < fuel := by
              rw [List.toFinset_cons]
              have hlt := card_sdiff_insert_lt dm hk hvF
              omega
            have hf : ∀ k2 m2, memoOK dm m2 → (∀ v ∈ (k :: V), Depends dm v k2) →
                ∃ m3, calculate_proper_level dm fuel k2 (k :: V) m2 =
                    some (specLevel dm ∅ k2, k :: V, m3) ∧ memoOK dm m3 ∧ memoLe m2 m3 := by
              intro k2 m2 hm2 hp2
              obtain ⟨m3, heq, hm3, hle3, _⟩ := ih k2 (k :: V) m2 hp2 hm2 hV1card
              exact ⟨m3, heq, hm3, hle3⟩
            have hds : ∀ d ∈ depsOf dm k, (dget dm d.1).isSome = true →
                ∀ v ∈ (k :: V), Depends dm v d.1 := by
              intro d hdm hsome v hvmem
              have hedge : Edge dm k d.1 := edge_intro hdm hsome
              rcases List.mem_cons.mp hvmem with heq | hvV
              · subst heq
                exact Relation.TransGen.single hedge
              · exact Relation.TransGen.tail (hpath v hvV) hedge
            obtain ⟨m2, hcd, hm2, hle2⟩ := calcDeps_ok dm _ (k :: V) hf (depsOf dm k) m hm hds
            have hmapne :
                (depsOf dm k).map (fun d => if (dget dm d.1).isNone then 0 else specLevel dm ∅ d.1) ≠ [] := by
              intro hmap
              exact hdne (List.map_eq_nil_iff.mp hmap)
            have hlevel :
                (if (-1 : Int) ∈ (depsOf dm k).map (fun d => if (dget dm d.1).isNone then 0 else specLevel dm ∅ d.1) then (-1 : Int)
                 else if (depsOf dm k).map (fun d => if (dget dm d.1).isNone then 0 else specLevel dm ∅ d.1) = [] then 0
                 else 1 + maxL ((depsOf dm k).map (fun d => if (dget dm d.1).isNone then 0 else specLevel dm ∅ d.1))) =
                specLevel dm ∅ k := by
              rw [specLevel_closed dm k deps hh hd]
              unfold combineLevels
              rw [hdeps]
              by_cases hmem : (-1 : Int) ∈ deps.map (fun d => if (dget dm d.1).isNone then 0 else specLevel dm ∅ d.1)
              · rw [if_pos hmem, if_pos hmem]
              · rw [if_neg hmem, if_neg hmem, if_neg (hdeps ▸ hmapne)]
            refine ⟨(k, specLevel dm ∅ k) :: m2, ?_, memoOK_write hm2 rfl,
              memoLe_write_far hle2 hlk, Or.inr (by rw [lookup_cons_self])⟩
            rw [cpl_step dm fuel k V m hlk hv hdne hcd]
            rw [hlevel, List.erase_cons_head]

theorem memoOK_nil (dm : DepMap) : memoOK dm [] := by
  intro k l h
  simp [List.lookup] at h

theorem runLevels_ok (dm : DepMap) :
    ∀ (keys : List String) (m : Memo), memoOK dm m →
      ∃ M, runLevels dm keys m = some M ∧ memoOK dm M ∧ memoLe m M ∧
        ∀ k ∈ keys, List.lookup k M = some (specLevel dm ∅ k) := by
  intro keys
  induction keys with
  | nil =>
    intro m hm
    exact ⟨m, rfl, hm, memoLe_refl m, by simp⟩
  | cons k rest ih =>
    intro m hm
    have hcard : (dmKeys dm \ ([] : List String).toFinset).card < defaultFuel dm := by
      rw [List.toFinset_nil, Finset.sdiff_empty]
      unfold defaultFuel dmKeys
      have h1 : (dm.map Prod.fst).toFinset.card ≤ (dm.map Prod.fst).length :=
        List.toFinset_card_le _
      rw [List.length_map] at h1
      omega
    obtain ⟨m1, heq, hm1, hle1, hk1⟩ :=
      calcLevel_ok dm (defaultFuel dm) k [] m (by simp) hm hcard
    obtain ⟨M, heq2, hM, hle2, hrest⟩ := ih m1 hm1
    refine ⟨M, ?_, hM, memoLe_trans hle1 hle2, ?_⟩
    · simp only [runLevels]
      rw [heq]
      exact heq2
    · intro x hx
      rcases List.mem_cons.mp hx with heqx | hx2
      · subst heqx
        rcases hk1 with hfalse | hlook
        · simp at hfalse
        · exact hle2 x _ hlook
      · exact hrest x hx2

theorem resolveAll_ok (dm : DepMap) (keys : List String) :
    ∃ M, resolveAll dm keys = some M ∧ memoOK dm M ∧
      ∀ k ∈ keys, List.lookup k M = some (specLevel dm ∅ k) := by
  obtain ⟨M, heq, hM, _, hall⟩ := runLevels_ok dm keys [] (memoOK_nil dm)
  exact ⟨M, heq, hM, hall⟩

theorem calcDeps_visited (dm : DepMap)
    (f : String → List String → Memo → Option (Int × List String × Memo))
    (hf : ∀ k v m r, f k v m = some r → r.2.1 = v) :
    ∀ ds v m r, calcDeps dm f ds v m = some r → r.2.1 = v := by
  intro ds
  induction ds with
  | nil =>
    intro v m r h
    simp only [calcDeps] at h
    injection h with h2
    rw [← h2]
  | cons d rest ih =>
    intro v m r h
    simp only [calcDeps] at h
    by_cases hn : (dget dm d.1).isNone = true
    · rw [if_pos hn] at h
      split at h
      · exact absurd h (by simp)
      · rename_i ls v2 m2 heq
        injection h with h2
        rw [← h2]
        exact ih v m (ls, v2, m2) heq
    · rw [if_neg hn] at h
      split at h
      · exact absurd h (by simp)
      · rename_i l v1 m1 heq1
        split at h
        · exact absurd h (by simp)
        · rename_i ls v2 m2 heq2
          injection h with h2
          rw [← h2]
          have hv1 : v1 = v := hf d.1 v m (l, v1, m1) heq1
          have hv2 : v2 = v1 := ih v1 m1 (ls, v2, m2) heq2
          show v2 = v
          rw [hv2, hv1]

theorem cpl_visited (dm : DepMap) :
    ∀ (fuel : Nat) (k : String) (V : List String) (m : Memo) r,
      calculate_proper_level dm fuel k V m = some r → r.2.1 = V := by
  intro fuel
  induction fuel with
  | zero =>
    intro k V m r h
    exact absurd h (by simp [cpl_zero])
  | succ fuel ih =>
    intro k V m r h
    simp only [calculate_proper_level] at h
    split at h
    · injection h with h2
      rw [← h2]
    · split at h
      · injection h with h2
        rw [← h2]
      · split at h
        · injection h with h2
          rw [← h2]
          exact List.erase_cons_head k V
        · split at h
          · exact absurd h (by simp)
          · rename_i levels v2 m2 heq
            injection h with h2
            rw [← h2]
            have hv2 : v2 = k :: V :=
              calcDeps_visited dm _ (fun k2 va ma ra hh => ih k2 va ma ra hh) _ _ _ _ heq
            show v2.erase k = V
            rw [hv2]
            exact List.erase_cons_head k V

theorem calcDeps_mono (dm : DepMap)
    (f : String → List String → Memo → Option (Int × List String × Memo))
    (hf : ∀ k v m r, f k v m = some r → memoLe m r.2.2) :
    ∀ ds v m r, calcDeps dm f ds v m = some r → memoLe m r.2.2 := by
  intro ds
  induction ds with
  | nil =>
    intro v m r h
    simp only [calcDeps] at h
    injection h with h2
    rw [← h2]
    exact memoLe_refl m
  | cons d rest ih =>
    intro v m r h
    simp only [calcDeps] at h
    by_cases hn : (dget dm d.1).isNone = true
    · rw [if_pos hn] at h
      split at h
      · exact absurd h (by simp)
      · rename_i ls v2 m2 heq
        injection h with h2
        rw [← h2]
        exact ih v m (ls, v2, m2) heq
    · rw [if_neg hn] at h
      split at h
      · exact absurd h (by simp)
      · rename_i l v1 m1 heq1
        split at h
        · exact absurd h (by simp)
        · rename_i ls v2 m2 heq2
          injection h with h2
          rw [← h2]
          exact memoLe_trans (hf d.1 v m (l, v1, m1) heq1) (ih v1 m1 (ls, v2, m2) heq2)

theorem cpl_mono (dm : DepMap) :
    ∀ (fuel : Nat) (k : String) (V : List String) (m : Memo) r,
      calculate_proper_level dm fuel k V m = some r → memoLe m r.2.2 := by
  intro fuel
  induction fuel with
  | zero =>
    intro k V m r h
    exact absurd h (by simp [cpl_zero])
  | succ fuel ih =>
    intro k V m r h
    simp only [calculate_proper_level] at h
    split at h
    · injection h with h2
      rw [← h2]
      exact memoLe_refl m
    · rename_i hlk
      split at h
      · injection h with h2
        rw [← h2]
        exact memoLe_refl m
      · split at h
        · injection h with h2
          rw [← h2]
          exact memoLe_write hlk
        · split at h
          · exact absurd h (by simp)
          · rename_i levels v2 m2 heq
            injection h with h2
            rw [← h2]
            have hle : memoLe m m2 :=
              calcDeps_mono dm _ (fun k2 va ma ra hh => ih k2 va ma ra hh) _ _ _ _ heq
            exact memoLe_write_far hle hlk

theorem level_current_none_iff (df : List Row) (k : String) :
    level_map df k = none ↔ current_map df k = none := by
  unfold level_map current_map
  rw [dget_none_iff, dget_none_iff, List.map_map, List.map_map]
  exact Iff.rfl

theorem depmap_none_iff (df : List Row) (k : String) :
    dget (dependency_map df) k = none ↔ level_map df k = none := by
  unfold dependency_map level_map
  rw [dget_none_iff, dget_none_iff, List.map_map, List.map_map]
  exact Iff.rfl

theorem formula_some_of_dep {r : Row} {d : Dep}
    (hd : d ∈ extract_dependencies r.formula r.fund_id) :
    ¬ (r.calculation_level ≠ 0 ∧ r.formula = none) := by
  rintro ⟨_, hnone⟩
  rw [hnone] at hd
  simp [extract_dependencies] at hd

theorem checkEdge_not_ctx (df : List Row) (r : Row) (d : Dep) (v : Violation)
    (h : checkEdge df r d = some v) : ctxViol v = false := by
  simp only [checkEdge] at h
  split at h
  · injection h with h2
    rw [← h2]
    rfl
  · split at h
    · injection h with h2
      rw [← h2]
      rfl
    · rename_i dl hlev
      split at h
      · injection h with h2
        rw [← h2]
        rfl
      · split at h
        · rename_i hcond
          exfalso
          cases hcur : current_map df d.1 with
          | none =>
            rw [hcur] at hcond
            simp at hcond
          | some b =>
            cases b with
            | true =>
              rw [hcur] at hcond
              exact hcond.2 rfl
            | false =>
              rw [hcur] at hcond
              simp at hcond
        · split at h
          · rename_i hcond2
            exfalso
            cases hcur : current_map df d.1 with
            | none =>
              have hlnone := (level_current_none_iff df d.1).mpr hcur
              rw [hlev] at hlnone
              exact Option.noConfusion hlnone
            | some b =>
              cases b with
              | true =>
                rw [hcur] at hcond2
                simp at hcond2
              | false =>
                rw [hcur] at hcond2
                exact hcond2.2 rfl
          · exact Option.noConfusion h

/-- C1: the claim states that a reference expecting Current against a
dependency declared point-in-time yields `ExpectedCurrentButPf` (and
symmetrically).  In the code the extracted expected-context tag is
overwritten by a tag recomputed from the dependency's own `is_current`
flag before the checks run, so the two context checks compare a value
with itself: the validator never emits a context-mismatch violation on
any registry. -/
theorem c1_context_checks_never_fire (df : List Row) :
    ∀ v ∈ validate df, ctxViol v = false := by
  intro v hv
  unfold validate at hv
  rw [List.mem_flatMap] at hv
  obtain ⟨r, _, hv2⟩ := hv
  unfold rowViolations at hv2
  rw [List.mem_filterMap] at hv2
  obtain ⟨d, _, hcheck⟩ := hv2
  exact checkEdge_not_ctx df r d v hcheck

/-- Witness for C1: a registry whose only violation is a missing dependency;
the theorem applies to it and reports it is not a context violation. -/
theorem c1_witness :
    ctxViol (Violation.missingDep "F!DG!A!current" "F!DG!K9!current" "pf") = false :=
  c1_context_checks_never_fire
    [Row.mk "F!DG!A!current" "F" 1 true (some "\"DG\"!\"K9\"!\"current\"")]
    (Violation.missingDep "F!DG!A!current" "F!DG!K9!current" "pf")
    (by decide)

/-- C2: the claim states that a key with non-zero declared level and absent
formula receives an `InvalidCalculationOrder` violation.  In the code the
check sits inside the per-dependency loop, and an absent formula extracts an
empty dependency list, so the loop body never runs: such a key contributes
no violations at all. -/
theorem c2_absent_formula_no_violation (df : List Row) (r : Row)
    (h : r.formula = none) :
    extract_dependencies r.formula r.fund_id = [] ∧ rowViolations df r = [] := by
  constructor
  · rw [h]
    rfl
  · unfold rowViolations
    rw [h]
    rfl

/-- Witness for C2: a level-2 key with absent formula produces no violations. -/
theorem c2_witness :
    extract_dependencies (Row.mk "F!DG!X!current" "F" 2 true none).formula
      (Row.mk "F!DG!X!current" "F" 2 true none).fund_id = [] ∧
    rowViolations [Row.mk "F!DG!X!current" "F" 2 true none]
      (Row.mk "F!DG!X!current" "F" 2 true none) = [] :=
  c2_absent_formula_no_violation
    [Row.mk "F!DG!X!current" "F" 2 true none]
    (Row.mk "F!DG!X!current" "F" 2 true none) rfl

/-- Counterexample for C6: a reference requesting context `current` whose
target is absent yields a `MissingDependency` violation carrying `"pf"`, not
the requested context. -/
theorem c6_counterexample :
    validate [Row.mk "F!DG!A!current" "F" 1 true (some "\"DG\"!\"K9\"!\"current\"")] =
      [Violation.missingDep "F!DG!A!current" "F!DG!K9!current" "pf"] ∧
    extract_dependencies (some "\"DG\"!\"K9\"!\"current\"") "F" =
      [("F!DG!K9!current", "current")] ∧
    ("pf" : String) ≠ "current" := by
  refine ⟨by decide, by decide, by decide⟩

/-- C6 (amended): for a dependency reference whose target is absent from the
registry, the validator appends exactly one `MissingDependency` violation
for that edge, carrying the context tag `"pf"` regardless of the requested
context (the extracted tag is overwritten before the record is built), and
the resolver gives the reference a leveling contribution of 0. -/
theorem c6_missing_dep_violation (df : List Row) (r : Row) (d : Dep)
    (hd : d ∈ extract_dependencies r.formula r.fund_id)
    (hmiss : level_map df d.1 = none) :
    checkEdge df r d = some (Violation.missingDep r.full_key d.1 "pf") ∧
    (∀ (fuel : Nat) (V : List String) (m : Memo),
      calcDeps (dependency_map df) (calculate_proper_level (dependency_map df) fuel)
        [d] V m = some ([0], V, m)) := by
  have hfor := formula_some_of_dep hd
  have hcur : current_map df d.1 = none := (level_current_none_iff df d.1).mp hmiss
  constructor
  · simp only [checkEdge]
    rw [if_neg hfor, hmiss, hcur]
  · intro fuel V m
    have hdm : dget (dependency_map df) d.1 = none := (depmap_none_iff df d.1).mpr hmiss
    simp only [calcDeps]
    rw [if_pos (by rw [hdm]; rfl)]

/-- Witness for C6's amended theorem, at the counterexample registry. -/
theorem c6_witness :
    checkEdge [Row.mk "F!DG!A!current" "F" 1 true (some "\"DG\"!\"K9\"!\"current\"")]
      (Row.mk "F!DG!A!current" "F" 1 true (some "\"DG\"!\"K9\"!\"current\""))
      ("F!DG!K9!current", "current") =
      some (Violation.missingDep "F!DG!A!current" "F!DG!K9!current" "pf") ∧
    (∀ (fuel : Nat) (V : List String) (m : Memo),
      calcDeps (dependency_map [Row.mk "F!DG!A!current" "F" 1 true (some "\"DG\"!\"K9\"!\"current\"")])
        (calculate_proper_level (dependency_map [Row.mk "F!DG!A!current" "F" 1 true (some "\"DG\"!\"K9\"!\"current\"")]) fuel)
        [("F!DG!K9!current", "current")] V m = some ([0], V, m)) :=
  c6_missing_dep_violation
    [Row.mk "F!DG!A!current" "F" 1 true (some "\"DG\"!\"K9\"!\"current\"")]
    (Row.mk "F!DG!A!current" "F" 1 true (some "\"DG\"!\"K9\"!\"current\""))
    ("F!DG!K9!current", "current") (by decide) (by decide)

/-- C7: for an edge whose subject has a formula-backed dependency list and
whose target exists with declared level `dl`, the validator emits an
`InvalidCalculationOrder` violation exactly when `dl` is at or above the
subject's declared level and that level is non-zero; otherwise the edge
yields no violation at all. -/
theorem c7_ordering_check (df : List Row) (r : Row) (d : Dep) (dl : Int)
    (hd : d ∈ extract_dependencies r.formula r.fund_id)
    (hlev : level_map df d.1 = some dl) :
    checkEdge df r d =
      if dl ≥ r.calculation_level ∧ r.calculation_level ≠ 0 then
        some (Violation.invalidOrder r.full_key d.1 (some dl) r.calculation_level)
      else none := by
  have hfor := formula_some_of_dep hd
  simp only [checkEdge, hlev]
  rw [if_neg hfor]
  by_cases hord : dl ≥ r.calculation_level ∧ r.calculation_level ≠ 0
  · rw [if_pos hord, if_pos hord]
  · rw [if_neg hord, if_neg hord]
    cases hcur : current_map df d.1 with
    | none =>
      exfalso
      have hlnone := (level_current_none_iff df d.1).mpr hcur
      rw [hlev] at hlnone
      exact Option.noConfusion hlnone
    | some b =>
      cases b with
      | true => rw [if_neg (by simp), if_neg (by simp)]
      | false => rw [if_neg (by simp), if_neg (by simp)]

/-- Witness for C7: two level-2 keys, the first depending on the second, and
the ordering check fires. -/
theorem c7_witness :
    checkEdge
      [Row.mk "F!DG!A!current" "F" 2 true (some "\"DG\"!\"B\"!\"current\""),
       Row.mk "F!DG!B!current" "F" 2 true none]
      (Row.mk "F!DG!A!current" "F" 2 true (some "\"DG\"!\"B\"!\"current\""))
      ("F!DG!B!current", "current") =
      if (2 : Int) ≥ (Row.mk "F!DG!A!current" "F" 2 true (some "\"DG\"!\"B\"!\"current\"")).calculation_level ∧
         (Row.mk "F!DG!A!current" "F" 2 true (some "\"DG\"!\"B\"!\"current\"")).calculation_level ≠ 0 then
        some (Violation.invalidOrder "F!DG!A!current" "F!DG!B!current" (some 2) 2)
      else none :=
  c7_ordering_check
    [Row.mk "F!DG!A!current" "F" 2 true (some "\"DG\"!\"B\"!\"current\""),
     Row.mk "F!DG!B!current" "F" 2 true none]
    (Row.mk "F!DG!A!current" "F" 2 true (some "\"DG\"!\"B\"!\"current\""))
    ("F!DG!B!current", "current") 2 (by decide) (by decide)

/-- C3: in any completed resolution pass, a queried key whose computed level
is not the cycle sentinel satisfies the recurrence: level 0 when its
dependency reference list is empty, otherwise one plus the maximum of its
dependencies' proper levels, a reference absent from the registry
contributing level 0. -/
theorem c3_level_recurrence (dm : DepMap) (keys : List String) (M : Memo) (k : String)
    (L : Int) (hrun : resolveAll dm keys = some M) (hk : k ∈ keys)
    (hlook : List.lookup k M = some L) (hne : L ≠ cycleLevel) :
    (depsOf dm k = [] → L = 0) ∧
    (depsOf dm k ≠ [] →
      L = 1 + maxL ((depsOf dm k).map
        (fun d => if (dget dm d.1).isNone then 0 else specLevel dm ∅ d.1))) := by
  obtain ⟨M2, hrun2, hOK, _⟩ := resolveAll_ok dm keys
  rw [hrun] at hrun2
  injection hrun2 with hM2
  subst hM2
  have hL : L = specLevel dm ∅ k := hOK k L hlook
  subst hL
  unfold cycleLevel at hne
  constructor
  · intro hdeps
    cases hh : dget dm k with
    | none => exact specLevel_none dm ∅ k (Finset.not_mem_empty k) hh
    | some deps =>
      have hdnil : deps = [] := by
        rw [depsOf_of_dget_some hh] at hdeps
        exact hdeps
      subst hdnil
      exact specLevel_some_nil dm ∅ k (Finset.not_mem_empty k) hh
  · intro hdeps
    cases hh : dget dm k with
    | none => exact absurd (depsOf_of_dget_none hh) hdeps
    | some deps =>
      have hdeq := depsOf_of_dget_some hh
      have hdne : deps ≠ [] := by
        rw [hdeq] at hdeps
        exact hdeps
      have hclosed := specLevel_closed dm k deps hh hdne
      rw [hdeq]
      by_cases hmem : (-1 : Int) ∈ deps.map
          (fun d => if (dget dm d.1).isNone then 0 else specLevel dm ∅ d.1)
      · exfalso
        apply hne
        rw [hclosed]
        unfold combineLevels
        rw [if_pos hmem]
      · rw [hclosed]
        unfold combineLevels
        rw [if_neg hmem]

/-- Witness for C3 at a registry with one present and one absent dependency. -/
theorem c3_witness :
    (1 : Int) = 1 + maxL ((depsOf [("A", [("B", "current"), ("M", "current")]), ("B", [])] "A").map
      (fun d => if (dget [("A", [("B", "current"), ("M", "current")]), ("B", [])] d.1).isNone then 0
        else specLevel [("A", [("B", "current"), ("M", "current")]), ("B", [])] ∅ d.1)) :=
  (c3_level_recurrence [("A", [("B", "current"), ("M", "current")]), ("B", [])]
    ["A", "B"] [("A", 1), ("B", 0)] "A" 1
    (by decide) (by decide) (by decide) (by decide)).2 (by decide)

/-- C4: two keys each transitively depending on the other both resolve to
the cycle sentinel in any completed pass; any queried key transitively
depending on such a key also resolves to the sentinel; and the sentinel is
negative, hence distinct from every valid level, in particular from 0. -/
theorem c4_cycle_sentinel (dm : DepMap) (keys : List String) (M : Memo) (k1 k2 : String)
    (hrun : resolveAll dm keys = some M) (h1 : k1 ∈ keys) (h2 : k2 ∈ keys)
    (d12 : Depends dm k1 k2) (d21 : Depends dm k2 k1) :
    List.lookup k1 M = some cycleLevel ∧ List.lookup k2 M = some cycleLevel ∧
    (∀ k ∈ keys, Depends dm k k1 → List.lookup k M = some cycleLevel) ∧
    cycleLevel < 0 := by
  obtain ⟨M2, hrun2, _, hall⟩ := resolveAll_ok dm keys
  rw [hrun] at hrun2
  injection hrun2 with hM2
  subst hM2
  have hc1 : OnCycle dm k1 := Relation.TransGen.trans d12 d21
  have hc2 : OnCycle dm k2 := Relation.TransGen.trans d21 d12
  have hs1 : specLevel dm ∅ k1 = -1 :=
    specLevel_eq_neg dm _ ∅ k1 (le_refl _) (Or.inr ⟨k1, Relation.ReflTransGen.refl, hc1⟩)
  have hs2 : specLevel dm ∅ k2 = -1 :=
    specLevel_eq_neg dm _ ∅ k2 (le_refl _) (Or.inr ⟨k2, Relation.ReflTransGen.refl, hc2⟩)
  refine ⟨?_, ?_, ?_, by norm_num [cycleLevel]⟩
  · rw [hall k1 h1, hs1]
    rfl
  · rw [hall k2 h2, hs2]
    rfl
  · intro k hk hdep
    have hs : specLevel dm ∅ k = -1 :=
      specLevel_eq_neg dm _ ∅ k (le_refl _)
        (Or.inr ⟨k1, Relation.TransGen.to_reflTransGen hdep, hc1⟩)
    rw [hall k hk, hs]
    rfl

/-- Witness for C4 on a two-key cycle plus one key depending on it. -/
theorem c4_witness :
    List.lookup "A" [("C", (-1 : Int)), ("A", -1), ("B", -1)] = some cycleLevel ∧
    List.lookup "B" [("C", (-1 : Int)), ("A", -1), ("B", -1)] = some cycleLevel ∧
    cycleLevel < 0 := by
  have happ := c4_cycle_sentinel
    [("A", [("B", "c")]), ("B", [("A", "c")]), ("C", [("A", "c")])]
    ["A", "B", "C"] [("C", -1), ("A", -1), ("B", -1)] "A" "B"
    (by decide) (by decide) (by decide)
    (Relation.TransGen.single ⟨⟨"c", by decide⟩, by decide⟩)
    (Relation.TransGen.single ⟨⟨"c", by decide⟩, by decide⟩)
  exact ⟨happ.1, happ.2.1, happ.2.2.2⟩

/-- C5: two resolution passes over the same dependency map that query the
keys in permuted orders memoize the same level for every queried key. -/
theorem c5_order_determinism (dm : DepMap) (l1 l2 : List String) (M1 M2 : Memo)
    (hperm : l1.Perm l2) (h1 : resolveAll dm l1 = some M1)
    (h2 : resolveAll dm l2 = some M2) :
    ∀ k ∈ l1, List.lookup k M1 = List.lookup k M2 := by
  obtain ⟨Ma, ha, _, halla⟩ := resolveAll_ok dm l1
  rw [h1] at ha
  injection ha with hMa
  subst hMa
  obtain ⟨Mb, hb, _, hallb⟩ := resolveAll_ok dm l2
  rw [h2] at hb
  injection hb with hMb
  subst hMb
  intro k hk
  rw [halla k hk, hallb k (hperm.mem_iff.mp hk)]

/-- Witness for C5: the two query orders of a two-key registry agree. -/
theorem c5_witness :
    List.lookup "A" [("A", (1 : Int)), ("B", 0)] = List.lookup "A" [("A", (1 : Int)), ("B", 0)] :=
  c5_order_determinism [("A", [("B", "x")]), ("B", [])] ["A", "B"] ["B", "A"]
    [("A", 1), ("B", 0)] [("A", 1), ("B", 0)]
    (by decide) (by decide) (by decide) "A" (by decide)

/-- C8: on every registry the resolver pass runs to completion (the fuel
bound always suffices, cycles and missing dependencies included), and every
record the validator produces is one of the four data violation kinds:
data-quality problems surface as data, never as a failed computation. -/
theorem c8_total_pass (df : List Row) :
    (∃ M, resolveAll (dependency_map df) (df.map Row.full_key) = some M) ∧
    (validate df).all dataViolation = true := by
  constructor
  · obtain ⟨M, heq, _, _⟩ := resolveAll_ok (dependency_map df) (df.map Row.full_key)
    exact ⟨M, heq⟩
  · rw [List.all_eq_true]
    intro v _
    cases v <;> rfl

/-- C9: the memo table is only written when a key's own resolution
completes: a memo hit returns the cached level with the memo untouched,
re-entering a key on the active path returns the sentinel with the memo
untouched, and every binding present in the memo before a call is still
present, unchanged, after it. -/
theorem c9_memo_discipline :
    (∀ (dm : DepMap) (fuel : Nat) (k : String) (V : List String) (m : Memo) (l : Int),
      List.lookup k m = some l →
      calculate_proper_level dm (fuel + 1) k V m = some (l, V, m)) ∧
    (∀ (dm : DepMap) (fuel : Nat) (k : String) (V : List String) (m : Memo),
      List.lookup k m = none → k ∈ V →
      calculate_proper_level dm (fuel + 1) k V m = some (-1, V, m)) ∧
    (∀ (dm : DepMap) (fuel : Nat) (k : String) (V : List String) (m : Memo)
      (r : Int × List String × Memo),
      calculate_proper_level dm fuel k V m = some r → memoLe m r.2.2) :=
  ⟨fun dm fuel k V m l h => cpl_memo_hit dm fuel k V m l h,
   fun dm fuel k V m h1 h2 => cpl_inpath dm fuel k V m h1 h2,
   fun dm fuel k V m r h => cpl_mono dm fuel k V m r h⟩

/-- Witness for C9: a memo hit, an in-path re-entry, and memo preservation,
each at a concrete state. -/
theorem c9_witness :
    calculate_proper_level [] 1 "A" [] [("A", 5)] = some (5, [], [("A", 5)]) ∧
    calculate_proper_level [] 1 "B" ["B"] [] = some (-1, ["B"], []) ∧
    memoLe [("A", (5 : Int))] [("A", (5 : Int))] :=
  ⟨c9_memo_discipline.1 [] 0 "A" [] [("A", 5)] 5 (by decide),
   c9_memo_discipline.2.1 [] 0 "B" ["B"] [] (by decide) (by decide),
   c9_memo_discipline.2.2 [] 1 "A" [] [("A", 5)] (5, [], [("A", 5)]) (by decide)⟩

/-- C10: every completed resolver call hands back the visited set exactly as
it received it: the key pushed on entry is removed again, and the early
returns leave it untouched, so sibling branches see an unperturbed path. -/
theorem c10_visited_restored (dm : DepMap) (fuel : Nat) (k : String) (V : List String)
    (m : Memo) (r : Int × List String × Memo)
    (h : calculate_proper_level dm fuel k V m = some r) : r.2.1 = V :=
  cpl_visited dm fuel k V m r h

/-- Witness for C10 on a call made with a nonempty ambient path. -/
theorem c10_witness :
    ((1, ["X"], [("A", (1 : Int)), ("B", 0)]) : Int × List String × Memo).2.1 = ["X"] :=
  c10_visited_restored [("A", [("B", "x")]), ("B", [])] 3 "A" ["X"] []
    (1, ["X"], [("A", 1), ("B", 0)]) (by decide)
